import Mathlib

/-!
Shallow embedding of the privacy-scanner main process (src/unnamed/part_002)
and proofs about its handlers.  Stateful OS probes (statfs, readdir, exec)
are modelled by their results; JS machine-float arithmetic is idealized as
exact rational arithmetic, with the non-finite cases (NaN, Infinity) made
explicit as Option values where they can arise.
-/

namespace Spec2Proof

/-! ## Risk scorer (compute-recoverability-score handler, lines 2139-2176) -/

/-- Result shape of the compute-recoverability-score handler: the clamped
score and the derived risk tier string. -/
structure ScoreResult where
  score : Int
  risk : String
deriving DecidableEq

/-- Embedding of the compute-recoverability-score handler (lines 2139-2176):
score starts at 0, adds 20 when the swap file is present, 25 when snapshots
are present, subtracts 30 when encryption is enabled, adds 15 when the
free-space percentage exceeds 20, then is shifted by 50 and clamped into
[0, 100]; the risk tier is HIGH above 70, MEDIUM above 40, LOW otherwise. -/
def computeRecoverabilityScore (swapPresent snapshotsPresent encryptionEnabled : Bool)
    (freeSpacePercentage : Int) : ScoreResult :=
  let s0 : Int :=
    (if swapPresent then 20 else 0) + (if snapshotsPresent then 25 else 0)
      + (if encryptionEnabled then -30 else 0)
      + (if freeSpacePercentage > 20 then 15 else 0)
  let score := max 0 (min 100 (s0 + 50))
  { score := score
    risk := if score > 70 then "HIGH" else if score > 40 then "MEDIUM" else "LOW" }

/-! ## Volume capacity probe (getDriveSpace, lines 1515-1537) -/

/-- Scaled rendering of the JS Number.toFixed operation: the integer n such
that the rendered string is n with d decimal digits after the point.  JS
picks the n minimizing the distance of n / 10 ^ d to the value, ties toward
the larger n, which on exact values is floor of x * 10 ^ d + 1/2. -/
def jsToFixedScaled (x : ℚ) (d : ℕ) : ℤ := ⌊x * 10 ^ d + 1 / 2⌋

/-- Result shape of getDriveSpace.  The byte fields mirror total, free and
used; the GB fields carry the exact rational later rendered with toFixed 2;
usagePercentQ carries the exact rational rendered with toFixed 1, with none
modelling the non-finite value (NaN or Infinity) that arises on the success
path when total = 0. -/
structure DriveSpace where
  total : ℤ
  free : ℤ
  used : ℤ
  totalGBQ : ℚ
  freeGBQ : ℚ
  usedGBQ : ℚ
  usagePercentQ : Option ℚ
deriving DecidableEq

/-- Embedding of getDriveSpace (lines 1515-1537).  The statfs call is
modelled by its result: some (blocks, bsize, bavail) on success, none when
it throws (the catch branch returns all-zero fields and the literal string
0 for usagePercent, modelled as some 0).  On the success path
total = blocks * bsize, free = bavail * bsize, used = total - free, and
usagePercent is used / total * 100, which JS evaluates to NaN or an
infinity when total = 0 (modelled as none). -/
def getDriveSpace (stat : Option (ℕ × ℕ × ℕ)) : DriveSpace :=
  match stat with
  | some (blocks, bsize, bavail) =>
    let total : ℤ := blocks * bsize
    let free : ℤ := bavail * bsize
    let used : ℤ := total - free
    { total := total, free := free, used := used
      totalGBQ := (total : ℚ) / 1024 ^ 3
      freeGBQ := (free : ℚ) / 1024 ^ 3
      usedGBQ := (used : ℚ) / 1024 ^ 3
      usagePercentQ := if total = 0 then none else some ((used : ℚ) / (total : ℚ) * 100) }
  | none =>
    { total := 0, free := 0, used := 0
      totalGBQ := 0, freeGBQ := 0, usedGBQ := 0
      usagePercentQ := some 0 }

/-- The statfs result of the C6 scenario: totalBytes = 537109504000 and
freeBytes = 161406156800, expressed with block size 1. -/
def scenarioStat : Option (ℕ × ℕ × ℕ) := some (537109504000, 1, 161406156800)

/-! ## Free-space aggregation (analyzeFreeSpace, lines 2273-2300) -/

/-- JS Math.round on an exact value: floor of x + 1/2 (halves round toward
positive infinity). -/
def jsMathRound (x : ℚ) : ℤ := ⌊x + 1 / 2⌋

/-- Result shape of analyzeFreeSpace: aggregate byte sums and the rounded
integer percentage. -/
structure FreeSpaceInfo where
  totalSpace : ℕ
  freeSpace : ℕ
  percentage : ℤ
deriving DecidableEq

/-- Exact aggregate free percentage before Math.round, mirroring the source
expression: totalSpace > 0 applies freeSpace / totalSpace * 100, else 0.
A drive contributes its (total, free) byte pair. -/
def rawFreePercentage (drives : List (ℕ × ℕ)) : ℚ :=
  let totalSpace : ℕ := (drives.map Prod.fst).sum
  let freeSpace : ℕ := (drives.map Prod.snd).sum
  if 0 < totalSpace then (freeSpace : ℚ) / (totalSpace : ℚ) * 100 else 0

/-- Embedding of analyzeFreeSpace (lines 2273-2300): sums total and free
bytes over the drive list and rounds the free ratio to the nearest integer
percent with Math.round. -/
def analyzeFreeSpace (drives : List (ℕ × ℕ)) : FreeSpaceInfo :=
  { totalSpace := (drives.map Prod.fst).sum
    freeSpace := (drives.map Prod.snd).sum
    percentage := jsMathRound (rawFreePercentage drives) }

/-- The free-space factor comparison of the compute-recoverability-score
handler (line 2155): the +15 increment applies exactly when the rounded
percentage exceeds 20. -/
def freeSpaceBonusApplied (drives : List (ℕ × ℕ)) : Bool :=
  if 20 < (analyzeFreeSpace drives).percentage then true else false

/-! ## Privacy-risk classification (assessPrivacyRisk, lines 2527-2538) -/

/-- The high-risk event-id allowlist of assessPrivacyRisk. -/
def highRiskEvents : List String := ["4624", "4625", "4648", "4720", "4726", "104"]

/-- The medium-risk event-id allowlist of assessPrivacyRisk. -/
def mediumRiskEvents : List String := ["4798", "4799", "1074", "6005", "6006"]

/-- Embedding of assessPrivacyRisk (lines 2527-2538).  The description
parameter is accepted and ignored, exactly as in the source. -/
def assessPrivacyRisk (eventId description : String) : String :=
  if highRiskEvents.contains eventId then "High"
  else if mediumRiskEvents.contains eventId then "Medium"
  else "Low"

/-! ## Hidden-file scan result (scan-hidden-files handler, lines 1605-1642) -/

/-- A discovered hidden artifact as pushed by the scanning techniques:
path, display name, size in bytes (0 for directories), and directory flag.
Timestamp and attribute strings play no role in the handler logic and are
omitted. -/
structure HiddenFile where
  path : String
  name : String
  size : ℕ
  isDirectory : Bool
deriving DecidableEq

/-- Insertion of an element into a list kept in size-descending order. -/
def insertBySizeDesc (a : HiddenFile) : List HiddenFile → List HiddenFile
  | [] => [a]
  | b :: t => if b.size ≤ a.size then a :: b :: t else b :: insertBySizeDesc a t

/-- Model of hiddenFiles.sort with comparator (a, b) => b.size - a.size:
a sort producing size-descending order (the handler property depends only
on the order contract of the comparator, not the sort algorithm). -/
def sortBySizeDesc : List HiddenFile → List HiddenFile
  | [] => []
  | a :: t => insertBySizeDesc a (sortBySizeDesc t)

/-- Result shape of the scan-hidden-files handler. -/
structure HiddenScanResult where
  files : List HiddenFile
  totalScanned : ℕ
  scanPath : String
deriving DecidableEq

/-- Embedding of the scan-hidden-files handler tail (lines 1605-1642): the
platform techniques populate hiddenFiles (modelled as the input list,
quantified over all possible discovery outcomes); the handler then sorts by
size descending and returns the first 200 entries, with totalScanned the
full pre-truncation count. -/
def scanHiddenFilesResult (hiddenFiles : List HiddenFile) (scanPath : String) :
    HiddenScanResult :=
  { files := (sortBySizeDesc hiddenFiles).take 200
    totalScanned := hiddenFiles.length
    scanPath := scanPath }

/-! ## File preview (preview-file handler, lines 1917-1945) -/

/-- The binary-content test of the preview handler: the character class
x00-x08, x0E-x1F, x7F of its regex, on a code point. -/
def isBinaryCode (c : ℕ) : Bool :=
  c ≤ 0x08 || (0x0E ≤ c && c ≤ 0x1F) || c == 0x7F

/-- Redaction marker string the preview handler substitutes for binary
content. -/
def binaryRedaction : String := "[Binary file - cannot preview]"

/-- Result shape of the preview-file handler success path. -/
structure PreviewResult where
  content : String
  bytesRead : ℕ
  isBinary : Bool
deriving DecidableEq

/-- Embedding of the preview-file handler success path (lines 1917-1945):
at most 2048 bytes are read from the start of the file (modelled as the
byte list data); the window is UTF-8 decoded and the regex with class
x00-x08, x0E-x1F, x7F is tested on the decoded text.  The test is applied
to the window bytes directly: UTF-8 decoding maps every byte below 0x80 to
the identical code point (such bytes occur in no multi-byte sequence), and
decoding of other bytes yields only code points at 0x80 and above or the
replacement character, none of which the class matches; so the byte-level
test coincides with the decoded-text test.  Decoded content is rendered
per byte with Char.ofNat. -/
def previewFile (data : List ℕ) : PreviewResult :=
  let window := data.take 2048
  let isBinary := window.any isBinaryCode
  { content := if isBinary then binaryRedaction
      else String.mk (window.map Char.ofNat)
    bytesRead := window.length
    isBinary := isBinary }

/-! ## Event-log entry parser (parseEventEntry, lines 2482-2525) -/

/-- Tests whether the first list starts the second, with Char equality. -/
def leadsWith : List Char → List Char → Bool
  | [], _ => true
  | _ :: _, [] => false
  | a :: s, b :: t => a == b && leadsWith s t

/-- Substring search on char lists, modelling the JS String.includes test. -/
def hasSubList (sub : List Char) : List Char → Bool
  | [] => sub.isEmpty
  | c :: t => leadsWith sub (c :: t) || hasSubList sub t

/-- Split on the newline character, modelling the JS String.split. -/
def splitLines : List Char → List (List Char)
  | [] => [[]]
  | c :: t =>
    if c == '\n' then [] :: splitLines t
    else
      match splitLines t with
      | [] => [[c]]
      | h :: r => (c :: h) :: r

/-- The whitespace class removed by the JS String.trim (its ASCII part,
which is all the wevtutil text output can contain here). -/
def isJsSpace (c : Char) : Bool :=
  c == ' ' || c == '\t' || c == '\n' || c == '\r' || c == '\x0b' || c == '\x0c'

/-- Trim of leading and trailing whitespace, modelling the JS String.trim. -/
def trimChars (l : List Char) : List Char :=
  ((l.dropWhile isJsSpace).reverse.dropWhile isJsSpace).reverse

/-- First match of the digit-run pattern of the parser regexes: the first
maximal run of decimal digits, if any. -/
def firstDigitRun : List Char → Option String
  | [] => none
  | c :: t =>
    if c.isDigit then some (String.mk (c :: t.takeWhile Char.isDigit))
    else firstDigitRun t

/-- Consumes exactly n decimal digits from the front of the list. -/
def takeDigitCount : ℕ → List Char → Option (List Char × List Char)
  | 0, l => some ([], l)
  | _ + 1, [] => none
  | n + 1, c :: t =>
    if c.isDigit then
      match takeDigitCount n t with
      | some (ds, rest) => some (c :: ds, rest)
      | none => none
    else none

/-- Consumes one expected character from the front of the list. -/
def expectChar (c : Char) : List Char → Option (List Char)
  | [] => none
  | a :: t => if a == c then some t else none

/-- Matches the TimeCreated timestamp pattern of the parser (four digits,
dash, two digits, dash, two digits, letter T, three colon-separated
two-digit groups, a dot, one or more digits, optional letter Z) at the
head of the list, returning the matched text. -/
def matchTimestampAt (l : List Char) : Option (List Char) := do
  let (d1, r1) ← takeDigitCount 4 l
  let r2 ← expectChar '-' r1
  let (d2, r3) ← takeDigitCount 2 r2
  let r4 ← expectChar '-' r3
  let (d3, r5) ← takeDigitCount 2 r4
  let r6 ← expectChar 'T' r5
  let (t1, r7) ← takeDigitCount 2 r6
  let r8 ← expectChar ':' r7
  let (t2, r9) ← takeDigitCount 2 r8
  let r10 ← expectChar ':' r9
  let (t3, r11) ← takeDigitCount 2 r10
  let r12 ← expectChar '.' r11
  let frac := r12.takeWhile Char.isDigit
  if frac.isEmpty then none
  else
    let z : List Char :=
      match r12.drop frac.length with
      | 'Z' :: _ => ['Z']
      | _ => []
    some (d1 ++ ['-'] ++ d2 ++ ['-'] ++ d3 ++ ['T'] ++ t1 ++ [':'] ++ t2
      ++ [':'] ++ t3 ++ ['.'] ++ frac ++ z)

/-- First match of the timestamp pattern anywhere in the list (the regex
engine tries each start position left to right). -/
def findTimestamp : List Char → Option String
  | [] => none
  | c :: t =>
    match matchTimestampAt (c :: t) with
    | some m => some (String.mk m)
    | none => findTimestamp t

/-- Numeric value of a digit run (the parseInt of the Level branch). -/
def digitRunValue (l : List Char) : ℕ :=
  l.foldl (fun acc c => acc * 10 + (c.toNat - 48)) 0

/-- The Level number to severity-name mapping of the parser. -/
def levelName (n : ℕ) : String :=
  if n = 1 then "Critical"
  else if n = 2 then "Error"
  else if n = 3 then "Warning"
  else if n = 4 then "Information"
  else "Unknown"

/-- Mutable parse state of parseEventEntry before the final keep test. -/
structure ParsedFields where
  eventId : Option String
  timeCreated : Option String
  level : Option String
  description : List Char
deriving DecidableEq

/-- One iteration of the line loop of parseEventEntry: the branch chain on
EventID, TimeCreated, Level, and the description accumulation. -/
def processLine (st : ParsedFields) (line : List Char) : ParsedFields :=
  if hasSubList "EventID".data line then
    match firstDigitRun line with
    | some run => { st with eventId := some run }
    | none => st
  else if hasSubList "TimeCreated".data line then
    match findTimestamp line with
    | some ts => { st with timeCreated := some ts }
    | none => st
  else if hasSubList "Level".data line then
    match firstDigitRun line with
    | some run => { st with level := some (levelName (digitRunValue run.data)) }
    | none => st
  else if 10 < line.length && !hasSubList "System".data line
      && !hasSubList "Provider".data line then
    if st.description.length < 200 then { st with description := st.description ++ line ++ [' '] }
    else st
  else st

/-- The line loop of parseEventEntry over the trimmed lines of the raw
entry text. -/
def parseEventFields (eventText : String) : ParsedFields :=
  ((splitLines eventText.data).map trimChars).foldl processLine
    { eventId := none, timeCreated := none, level := none, description := [] }

/-- A parsed event-log entry as returned by parseEventEntry. -/
structure EventLogEntry where
  eventId : String
  timeCreated : String
  level : String
  logSource : String
  description : String
  privacyRisk : String
deriving DecidableEq

/-- Embedding of parseEventEntry (lines 2482-2525): split on newlines,
trim, run the line loop, then keep the entry only when both eventId and
timeCreated were found (JS truthiness coincides with presence here since a
found eventId is a nonempty digit run and a found timeCreated is a
nonempty matched timestamp). -/
def parseEventEntry (eventText logSource : String) : Option EventLogEntry :=
  let st := parseEventFields eventText
  match st.eventId, st.timeCreated with
  | some eid, some ts =>
    some { eventId := eid
           timeCreated := ts
           level := st.level.getD "Information"
           logSource := logSource
           description := String.mk ((trimChars st.description).take 200)
           privacyRisk := assessPrivacyRisk eid (String.mk st.description) }
  | _, _ => none

/-! ## Unix hidden-file walk (scanUnixHiddenFiles and its inner scanDirectory,
lines 1842-1914) -/

/-- A file-system tree entry: a file with a size or a directory with
children.  Paths are modelled as component lists; path.join appends one
component. -/
inductive FsEntry where
  | file (name : String) (size : ℕ)
  | dir (name : String) (children : List FsEntry)

/-- Name of an entry. -/
def FsEntry.name : FsEntry → String
  | .file n _ => n
  | .dir n _ => n

/-- The hidden test of the walk: the name starts with a dot and is neither
the dot nor the dot-dot entry. -/
def isHiddenName (s : String) : Bool :=
  (match s.data with
   | '.' :: _ => true
   | _ => false) && s != "." && s != ".."

/-- A record pushed onto hiddenFiles by the Unix walk. -/
structure UnixArtifact where
  path : List String
  name : String
  size : ℕ
  isDirectory : Bool
deriving DecidableEq

/-- Embedding of the entry loop of scanDirectory (lines 1845-1887): for
each entry, stop when the cap is reached; a dot-named entry is pushed
(files with their size, directories with size 0) and the count
incremented; a dot-named directory is additionally recursed into when
depth < 2; other entries are skipped.  The directory branch is written
with the depth test outermost, which is the same computation as the
source's single branch with a conditional recursion.  The stat call is
modelled as always succeeding: a failing stat only skips that entry, which
is a special case of the tree simply not containing it. -/
def scanEntries (maxFiles : ℕ) : List FsEntry → List String → ℕ → ℕ →
    List UnixArtifact × ℕ
  | [], _, _, count => ([], count)
  | e :: rest, dirPath, depth, count =>
    if maxFiles ≤ count then ([], count)
    else
      match e with
      | FsEntry.file nm sz =>
        if isHiddenName nm then
          let a : UnixArtifact := { path := dirPath ++ [nm], name := nm, size := sz,
                                    isDirectory := false }
          let r := scanEntries maxFiles rest dirPath depth (count + 1)
          (a :: r.1, r.2)
        else scanEntries maxFiles rest dirPath depth count
      | FsEntry.dir nm ch =>
        if isHiddenName nm then
          if depth < 2 then
            let a : UnixArtifact := { path := dirPath ++ [nm], name := nm, size := 0,
                                      isDirectory := true }
            let sub := scanEntries maxFiles ch (dirPath ++ [nm]) (depth + 1) (count + 1)
            let r := scanEntries maxFiles rest dirPath depth sub.2
            (a :: (sub.1 ++ r.1), r.2)
          else
            let a : UnixArtifact := { path := dirPath ++ [nm], name := nm, size := 0,
                                      isDirectory := true }
            let r := scanEntries maxFiles rest dirPath depth (count + 1)
            (a :: r.1, r.2)
        else scanEntries maxFiles rest dirPath depth count

/-- Embedding of scanDirectory (line 1845-1846): the entry guard on the cap
and on depth > 3, then the entry loop. -/
def scanDirectory (maxFiles : ℕ) (entries : List FsEntry) (dirPath : List String)
    (depth count : ℕ) : List UnixArtifact × ℕ :=
  if maxFiles ≤ count || 3 < depth then ([], count)
  else scanEntries maxFiles entries dirPath depth count

/-- Total number of entries in a forest: an upper bound on how much the
walk can increment its count. -/
def forestWeight : List FsEntry → ℕ
  | [] => 0
  | FsEntry.file _ _ :: rest => 1 + forestWeight rest
  | FsEntry.dir _ ch :: rest => 1 + forestWeight ch + forestWeight rest

/-- The hidden entries the recursive dot-prefix walk can reach from a
directory listing at remaining-depth budget d: a dot-named entry of the
listing itself, or a path through a dot-named subdirectory entered while
d < 2 (exactly the recursion guard of the walk). -/
inductive ReachPath : List FsEntry → ℕ → List String → Prop
  | here {l : List FsEntry} {d : ℕ} {e : FsEntry} (he : e ∈ l)
      (hh : isHiddenName e.name = true) : ReachPath l d [e.name]
  | deeper {l : List FsEntry} {d : ℕ} {nm : String} {ch : List FsEntry} {p : List String}
      (he : FsEntry.dir nm ch ∈ l) (hh : isHiddenName nm = true) (hd : d < 2)
      (hr : ReachPath ch (d + 1) p) : ReachPath l d (nm :: p)

/-- The fixed list of well-known hidden directories the home-directory
second pass re-scans (line 1894). -/
def commonHiddenDirs : List String :=
  [".config", ".ssh", ".local", ".cache", ".mozilla", ".chrome"]

/-- Looks up a directory entry by name in a listing, modelling the
fs.promises.access check followed by the readdir inside the re-invoked
scanDirectory: an absent name makes access throw, and a file of that name
makes readdir throw inside scanDirectory, which swallows the error and
returns zero artifacts — both collapse to none here. -/
def findDir (entries : List FsEntry) (nm : String) : Option (List FsEntry) :=
  match entries with
  | [] => none
  | FsEntry.file n _ :: rest => if n == nm then none else findDir rest nm
  | FsEntry.dir n ch :: rest => if n == nm then some ch else findDir rest nm

/-- Embedding of the commonHiddenDirs loop of scanUnixHiddenFiles (lines
1896-1907): for each name, stop once the cap is reached, otherwise
re-invoke scanDirectory on that subdirectory of the scan root with depth
reset to 0 and the running count threaded through. -/
def scanCommonDirs (maxFiles : ℕ) (entries : List FsEntry) (root : List String) :
    List String → ℕ → List UnixArtifact × ℕ
  | [], count => ([], count)
  | nm :: rest, count =>
    if maxFiles ≤ count then ([], count)
    else
      match findDir entries nm with
      | some ch =>
        let r := scanDirectory maxFiles ch (root ++ [nm]) 0 count
        let r2 := scanCommonDirs maxFiles entries root rest r.2
        (r.1 ++ r2.1, r2.2)
      | none => scanCommonDirs maxFiles entries root rest count

/-- Embedding of the whole scanUnixHiddenFiles walk (lines 1842-1914): the
recursive dot-prefix walk from the scan root, followed, when the scan root
is the home directory, by the second pass over the six well-known hidden
directories, each re-scanned at depth 0 — which is what lets the full walk
visit entries four levels below the scan root. -/
def scanUnixHiddenFiles (maxFiles : ℕ) (entries : List FsEntry) (root : List String)
    (isHomeDir : Bool) : List UnixArtifact × ℕ :=
  let r := scanDirectory maxFiles entries root 0 0
  if isHomeDir then
    let r2 := scanCommonDirs maxFiles entries root commonHiddenDirs r.2
    (r.1 ++ r2.1, r2.2)
  else r

/-- A tree whose hidden file sits two levels below the root beneath a
non-hidden directory: the walk never enters docs, so .secret is never
discovered although it is within the claimed depth bound. -/
def nonHiddenParentTree : List FsEntry :=
  [FsEntry.dir "docs" [FsEntry.file ".secret" 5]]

/-- A chain of hidden directories with a hidden file three levels below
the root: discoverable by the walk. -/
def deepHiddenChain : List FsEntry :=
  [FsEntry.dir ".a" [FsEntry.dir ".b" [FsEntry.file ".c" 7]]]

/-- A home-directory tree on which the second pass reaches four levels
below the scan root: .config re-scanned at depth 0 lets the walk push
.config/.a/.b/.c, one level deeper than the main walk can go. -/
def homeDepthTree : List FsEntry :=
  [FsEntry.dir ".config" [FsEntry.dir ".a" [FsEntry.dir ".b" [FsEntry.file ".c" 3]]]]

/-! ## Report signing and verification (generate-scan-report, lines
2543-2589, and verify-report, lines 2707-2738)

The report payload is modelled as an ordered flat string-valued object (an
association list), JSON.stringify as an exact serializer over it, and the
crypto.sign / crypto.verify pair as an idealized signature scheme: a
signature records the signing key and the exact message and verification
succeeds exactly on the matching key and identical message (deterministic,
perfectly unforgeable).  JS object spread preserves key order, so the
payload assembled at sign time and the object re-serialized at verify time
after stripping the signature and publicKey keys coincide, which is the
code property the round-trip depends on.  The verify handler re-parses the
persisted JSON file; tampering is modelled at the parsed-object level, as
the claim states it: a change to any field other than signature and
publicKey. -/

/-- Characters JSON.stringify emits unescaped inside a string literal:
everything at or above the space, except the quote and the backslash.  The
serializer below is exact for payloads of such plain characters. -/
def plainChar (c : Char) : Bool :=
  0x20 ≤ c.toNat && c != '"' && c != '\\'

/-- A string of plain characters only. -/
abbrev PlainStr (s : String) : Prop := ∀ c ∈ s.data, plainChar c = true

/-- An object all of whose keys and values are plain strings. -/
abbrev PlainKV (l : List (String × String)) : Prop :=
  ∀ kv ∈ l, PlainStr kv.1 ∧ PlainStr kv.2

/-- The comma-separated quoted key colon quoted value items of
JSON.stringify on a flat string-valued object. -/
def serializeItems : List (String × String) → List Char
  | [] => []
  | [(k, v)] => '"' :: (k.data ++ ('"' :: ':' :: '"' :: (v.data ++ ['"'])))
  | (k, v) :: t =>
      '"' :: (k.data ++ ('"' :: ':' :: '"' :: (v.data ++ ('"' :: ',' :: serializeItems t))))

/-- JSON.stringify of a flat string-valued object in its key order. -/
def serializeFlat (l : List (String × String)) : List Char :=
  '\x7b' :: (serializeItems l ++ ['\x7d'])

/-- An idealized asymmetric signature: the signing key identifier and the
exact signed message. -/
structure Signature where
  keyId : ℕ
  message : List Char
deriving DecidableEq

/-- Idealized crypto.sign: records key and message. -/
def cryptoSign (keyId : ℕ) (message : List Char) : Signature :=
  { keyId := keyId, message := message }

/-- Idealized crypto.verify: succeeds exactly on the signature produced by
the matching key over the identical message. -/
def cryptoVerify (pubKeyId : ℕ) (message : List Char) (sig : Signature) : Bool :=
  sig.keyId == pubKeyId && sig.message == message

/-- A signed report as persisted: the payload object in its key order
(reportId, timestamp, version, then the scan data fields), the detached
signature and the embedded public key.  In the JSON file the last two are
two more keys; verification strips them by name, modelled by
stripSigKeys. -/
structure SignedReport where
  payload : List (String × String)
  signature : Signature
  publicKey : ℕ

/-- Embedding of the generate-scan-report handler core (lines 2543-2560):
assemble reportId, timestamp, version and the scan data in spread order,
sign the JSON serialization of that object with the process-lifetime key,
and attach signature and public key.  The PDF and QR side artifacts carry
no logic and are omitted. -/
def generateScanReport (keyId : ℕ) (reportId timestamp : String)
    (scanData : List (String × String)) : SignedReport :=
  let reportData := ("reportId", reportId) :: ("timestamp", timestamp)
    :: ("version", "1.0") :: scanData
  { payload := reportData
    signature := cryptoSign keyId (serializeFlat reportData)
    publicKey := keyId }

/-- The destructuring at verify time that removes the signature and
publicKey keys, leaving the rest of the object in order. -/
def stripSigKeys (l : List (String × String)) : List (String × String) :=
  l.filter (fun kv => kv.1 != "signature" && kv.1 != "publicKey")

/-- Field access on the parsed report object. -/
def lookupKey (l : List (String × String)) (k : String) : Option String :=
  match l.find? (fun kv => kv.1 == k) with
  | some kv => some kv.2
  | none => none

/-- Result shape of the verify-report handler. -/
structure VerifyResult where
  valid : Bool
  reportId : Option String
  timestamp : Option String
  publicKeyMatch : Bool
deriving DecidableEq

/-- Embedding of the verify-report handler (lines 2707-2738) on a parsed
report whose signature and publicKey fields are present: strip the two key
fields, re-serialize identically, check the signature against the embedded
public key, and compare that key with the active process key. -/
def verifyReport (report : SignedReport) (activeKeyId : ℕ) : VerifyResult :=
  let dataToVerify := stripSigKeys report.payload
  { valid := cryptoVerify report.publicKey (serializeFlat dataToVerify) report.signature
    reportId := lookupKey report.payload "reportId"
    timestamp := lookupKey report.payload "timestamp"
    publicKeyMatch := report.publicKey == activeKeyId }

/-! ## Theorems -/

/-- Two plain prefixes ending at a quote decompose uniquely. -/
theorem quote_split {a₁ a₂ r₁ r₂ : List Char}
    (h₁ : ∀ c ∈ a₁, plainChar c = true) (h₂ : ∀ c ∈ a₂, plainChar c = true)
    (heq : a₁ ++ '"' :: r₁ = a₂ ++ '"' :: r₂) : a₁ = a₂ ∧ r₁ = r₂ := by
  induction a₁ generalizing a₂ with
  | nil =>
    cases a₂ with
    | nil => simpa using heq
    | cons b t =>
      exfalso
      simp only [List.nil_append, List.cons_append, List.cons.injEq] at heq
      have hb := h₂ b (List.mem_cons_self b t)
      rw [← heq.1] at hb
      simp [plainChar] at hb
  | cons a s ih =>
    cases a₂ with
    | nil =>
      exfalso
      simp only [List.nil_append, List.cons_append, List.cons.injEq] at heq
      have ha := h₁ a (List.mem_cons_self a s)
      rw [heq.1] at ha
      simp [plainChar] at ha
    | cons b t =>
      simp only [List.cons_append, List.cons.injEq] at heq
      obtain ⟨rfl, heq2⟩ := heq
      have h3 := ih (fun c hc => h₁ c (List.mem_cons_of_mem _ hc))
        (fun c hc => h₂ c (List.mem_cons_of_mem _ hc)) heq2
      exact ⟨by rw [h3.1], h3.2⟩

/-- The item serialization is injective on plain objects. -/
theorem serializeItems_inj : ∀ (l₁ l₂ : List (String × String)),
    PlainKV l₁ → PlainKV l₂ → serializeItems l₁ = serializeItems l₂ → l₁ = l₂ := by
  intro l₁
  induction l₁ with
  | nil =>
    intro l₂ _ _ heq
    match l₂ with
    | [] => rfl
    | [(k, v)] => simp [serializeItems] at heq
    | (k, v) :: (x :: t) => simp [serializeItems] at heq
  | cons kv₁ t₁ ih =>
    intro l₂ hp₁ hp₂ heq
    obtain ⟨k₁, v₁⟩ := kv₁
    match l₂ with
    | [] =>
      exfalso
      match t₁ with
      | [] => simp [serializeItems] at heq
      | x :: t => simp [serializeItems] at heq
    | (k₂, v₂) :: t₂ =>
      have hk₁ : PlainStr k₁ := (hp₁ (k₁, v₁) (List.mem_cons_self _ _)).1
      have hv₁ : PlainStr v₁ := (hp₁ (k₁, v₁) (List.mem_cons_self _ _)).2
      have hk₂ : PlainStr k₂ := (hp₂ (k₂, v₂) (List.mem_cons_self _ _)).1
      have hv₂ : PlainStr v₂ := (hp₂ (k₂, v₂) (List.mem_cons_self _ _)).2
      have hshape : ∀ (k v : String) (t : List (String × String)),
          serializeItems ((k, v) :: t) =
            '"' :: (k.data ++ ('"' :: ':' :: '"' :: (v.data ++ ('"' ::
              (match t with
               | [] => []
               | _ :: _ => ',' :: serializeItems t))))) := by
        intro k v t
        match t with
        | [] => simp [serializeItems]
        | x :: r => simp [serializeItems]
      rw [hshape, hshape] at heq
      simp only [List.cons.injEq, true_and] at heq
      obtain ⟨hkeq, hrest⟩ := quote_split hk₁ hk₂ heq
      have hk : k₁ = k₂ := by
        cases k₁
        cases k₂
        exact congrArg String.mk (by simpa using hkeq)
      simp only [List.cons.injEq, true_and] at hrest
      obtain ⟨hveq, hrest2⟩ := quote_split hv₁ hv₂ hrest
      have hv : v₁ = v₂ := by
        cases v₁
        cases v₂
        exact congrArg String.mk (by simpa using hveq)
      subst hk
      subst hv
      cases t₁ with
      | nil =>
        cases t₂ with
        | nil => rfl
        | cons y r => simp at hrest2
      | cons x t =>
        cases t₂ with
        | nil => simp at hrest2
        | cons y r =>
          simp only [List.cons.injEq, true_and] at hrest2
          have htail := ih (y :: r) (fun kv hkv => hp₁ kv (List.mem_cons_of_mem _ hkv))
            (fun kv hkv => hp₂ kv (List.mem_cons_of_mem _ hkv)) hrest2
          rw [htail]

/-- The canonical serialization is injective on plain objects. -/
theorem serializeFlat_inj {l₁ l₂ : List (String × String)}
    (hp₁ : PlainKV l₁) (hp₂ : PlainKV l₂)
    (heq : serializeFlat l₁ = serializeFlat l₂) : l₁ = l₂ := by
  simp only [serializeFlat, List.cons.injEq, true_and] at heq
  have hlen : (serializeItems l₁).length = (serializeItems l₂).length := by
    have hl := congrArg List.length heq
    simpa using hl
  exact serializeItems_inj l₁ l₂ hp₁ hp₂ (List.append_inj_left heq hlen)

/-- Stripping the signature keys from an object that never contained them
is the identity, so the bytes verified equal the bytes signed. -/
theorem stripSigKeys_eq_self {l : List (String × String)}
    (h : ∀ kv ∈ l, kv.1 ≠ "signature" ∧ kv.1 ≠ "publicKey") :
    stripSigKeys l = l := by
  rw [stripSigKeys, List.filter_eq_self]
  intro kv hkv
  have h2 := h kv hkv
  simp [h2.1, h2.2]

/-- The walk only ever increases its count, by at most the number of
entries in the forest. -/
theorem scan_count_bounds (maxF : ℕ) (l : List FsEntry) (p : List String) (d c : ℕ) :
    c ≤ (scanEntries maxF l p d c).2 ∧
      (scanEntries maxF l p d c).2 ≤ c + forestWeight l := by
  induction l, p, d, c using scanEntries.induct maxF with
  | case1 p d c => simp [scanEntries]
  | case2 e rest p d c hcap =>
    rw [scanEntries.eq_def]
    simp only [if_pos hcap]
    simp
  | case3 rest p d c hcap nm sz hh ih =>
    rw [scanEntries.eq_def]
    simp only [if_neg hcap, if_pos hh, forestWeight]
    omega
  | case4 rest p d c hcap nm sz hh ih =>
    rw [scanEntries.eq_def]
    simp only [if_neg hcap, if_neg hh, forestWeight]
    omega
  | case5 rest p d c hcap nm ch hh hd sub ih1 ih2 =>
    have hsub : sub = scanEntries maxF ch (p ++ [nm]) (d + 1) (c + 1) := rfl
    rw [hsub] at ih2
    rw [scanEntries.eq_def]
    simp only [if_neg hcap, if_pos hh, if_pos hd, forestWeight]
    omega
  | case6 rest p d c hcap nm ch hh hd ih =>
    rw [scanEntries.eq_def]
    simp only [if_neg hcap, if_pos hh, if_neg hd, forestWeight]
    omega
  | case7 rest p d c hcap nm ch hh ih =>
    rw [scanEntries.eq_def]
    simp only [if_neg hcap, if_neg hh, forestWeight]
    omega

/-- A reachable path stays reachable when the listing grows by one
entry. -/
theorem reachPath_cons {l : List FsEntry} {d : ℕ} {p : List String} (e : FsEntry)
    (hr : ReachPath l d p) : ReachPath (e :: l) d p := by
  cases hr with
  | here he hh => exact ReachPath.here (List.mem_cons_of_mem _ he) hh
  | deeper he hh hd hr2 => exact ReachPath.deeper (List.mem_cons_of_mem _ he) hh hd hr2

/-- A path reachable at depth budget d has between 1 and 3 - d components,
for d ≤ 2: the deeper constructor fires only below depth 2. -/
theorem reachPath_length {l : List FsEntry} {d : ℕ} {p : List String}
    (hr : ReachPath l d p) : d ≤ 2 → 1 ≤ p.length ∧ p.length + d ≤ 3 := by
  induction hr with
  | here he hh =>
    intro hd2
    simp only [List.length_cons, List.length_nil]
    omega
  | deeper he hh hd hr2 ih =>
    intro hd2
    have h2 := ih (by omega)
    simp only [List.length_cons]
    omega

/-- Every component of a reachable path is dot-prefixed: the walk enters
and records dot-named entries only. -/
theorem reachPath_hidden {l : List FsEntry} {d : ℕ} {p : List String}
    (hr : ReachPath l d p) : ∀ s ∈ p, isHiddenName s = true := by
  induction hr with
  | here he hh =>
    intro s hs
    rcases List.mem_singleton.mp hs with rfl
    exact hh
  | deeper he hh hd hr2 ih =>
    intro s hs
    rcases List.mem_cons.mp hs with rfl | hs
    · exact hh
    · exact ih s hs

/-- Soundness of the entry loop: every artifact it emits extends the
current directory path by a reachable dot-prefixed chain. -/
theorem scan_path_sound (maxF : ℕ) (l : List FsEntry) (p : List String) (d c : ℕ) :
    ∀ a ∈ (scanEntries maxF l p d c).1,
      ∃ pth, a.path = p ++ pth ∧ ReachPath l d pth := by
  induction l, p, d, c using scanEntries.induct maxF with
  | case1 p d c => simp [scanEntries]
  | case2 e rest p d c hcap =>
    rw [scanEntries.eq_def]
    simp only [if_pos hcap]
    simp
  | case3 rest p d c hcap nm sz hh ih =>
    intro a ha
    rw [scanEntries.eq_def] at ha
    simp only [if_neg hcap, if_pos hh] at ha
    rcases List.mem_cons.mp ha with rfl | ha
    · exact ⟨[nm], rfl,
        ReachPath.here (List.mem_cons_self _ _) (by simpa [FsEntry.name] using hh)⟩
    · obtain ⟨pth, hpa, hr⟩ := ih a ha
      exact ⟨pth, hpa, reachPath_cons _ hr⟩
  | case4 rest p d c hcap nm sz hh ih =>
    intro a ha
    rw [scanEntries.eq_def] at ha
    simp only [if_neg hcap, if_neg hh] at ha
    obtain ⟨pth, hpa, hr⟩ := ih a ha
    exact ⟨pth, hpa, reachPath_cons _ hr⟩
  | case5 rest p d c hcap nm ch hh hd sub ih1 ih2 =>
    intro a ha
    have hsub : sub = scanEntries maxF ch (p ++ [nm]) (d + 1) (c + 1) := rfl
    rw [hsub] at ih2
    rw [scanEntries.eq_def] at ha
    simp only [if_neg hcap, if_pos hh, if_pos hd] at ha
    rcases List.mem_cons.mp ha with rfl | ha
    · exact ⟨[nm], rfl,
        ReachPath.here (List.mem_cons_self _ _) (by simpa [FsEntry.name] using hh)⟩
    · rcases List.mem_append.mp ha with ha | ha
      · obtain ⟨pth, hpa, hr⟩ := ih1 a ha
        refine ⟨nm :: pth, ?_, ReachPath.deeper (List.mem_cons_self _ _) hh hd hr⟩
        rw [hpa, List.append_assoc]
        rfl
      · obtain ⟨pth, hpa, hr⟩ := ih2 a ha
        exact ⟨pth, hpa, reachPath_cons _ hr⟩
  | case6 rest p d c hcap nm ch hh hd ih =>
    intro a ha
    rw [scanEntries.eq_def] at ha
    simp only [if_neg hcap, if_pos hh, if_neg hd] at ha
    rcases List.mem_cons.mp ha with rfl | ha
    · exact ⟨[nm], rfl,
        ReachPath.here (List.mem_cons_self _ _) (by simpa [FsEntry.name] using hh)⟩
    · obtain ⟨pth, hpa, hr⟩ := ih a ha
      exact ⟨pth, hpa, reachPath_cons _ hr⟩
  | case7 rest p d c hcap nm ch hh ih =>
    intro a ha
    rw [scanEntries.eq_def] at ha
    simp only [if_neg hcap, if_neg hh] at ha
    obtain ⟨pth, hpa, hr⟩ := ih a ha
    exact ⟨pth, hpa, reachPath_cons _ hr⟩

/-- Soundness through the guarded scanDirectory wrapper. -/
theorem scanDirectory_path_sound (maxF : ℕ) (l : List FsEntry) (p : List String)
    (d c : ℕ) : ∀ a ∈ (scanDirectory maxF l p d c).1,
      ∃ pth, a.path = p ++ pth ∧ ReachPath l d pth := by
  intro a ha
  rw [scanDirectory] at ha
  by_cases hg : (maxF ≤ c || 3 < d) = true
  · rw [if_pos hg] at ha
    simp at ha
  · rw [if_neg hg] at ha
    exact scan_path_sound maxF l p d c a ha

/-- Soundness of the home-directory second pass: each of its artifacts
comes from one of the listed well-known directories, re-scanned at depth
0, extended by a chain reachable in that subtree. -/
theorem scanCommonDirs_sound (maxF : ℕ) (entries : List FsEntry) (root : List String) :
    ∀ (names : List String) (c : ℕ), ∀ a ∈ (scanCommonDirs maxF entries root names c).1,
      ∃ nm ch pth, nm ∈ names ∧ findDir entries nm = some ch ∧
        ReachPath ch 0 pth ∧ a.path = root ++ nm :: pth := by
  intro names
  induction names with
  | nil =>
    intro c a ha
    simp [scanCommonDirs] at ha
  | cons nm rest ih =>
    intro c a ha
    rw [scanCommonDirs] at ha
    by_cases hcap : maxF ≤ c
    · rw [if_pos hcap] at ha
      simp at ha
    · rw [if_neg hcap] at ha
      cases hfd : findDir entries nm with
      | some ch =>
        rw [hfd] at ha
        simp only [List.mem_append] at ha
        rcases ha with ha | ha
        · obtain ⟨pth, hpa, hr⟩ := scanDirectory_path_sound maxF ch (root ++ [nm]) 0 c a ha
          refine ⟨nm, ch, pth, List.mem_cons_self _ _, hfd, hr, ?_⟩
          rw [hpa, List.append_assoc]
          rfl
        · obtain ⟨nm2, ch2, pth2, hmem, hfd2, hr2, hpa2⟩ := ih _ a ha
          exact ⟨nm2, ch2, pth2, List.mem_cons_of_mem _ hmem, hfd2, hr2, hpa2⟩
      | none =>
        rw [hfd] at ha
        obtain ⟨nm2, ch2, pth2, hmem, hfd2, hr2, hpa2⟩ := ih _ a ha
        exact ⟨nm2, ch2, pth2, List.mem_cons_of_mem _ hmem, hfd2, hr2, hpa2⟩

/-- The walk on a non-home root is the main recursive pass alone. -/
theorem scanUnixHiddenFiles_false_eq (maxF : ℕ) (l : List FsEntry) (root : List String) :
    scanUnixHiddenFiles maxF l root false = scanDirectory maxF l root 0 0 := rfl

/-- The walk on the home root is the main pass followed by the
common-directory pass. -/
theorem scanUnixHiddenFiles_true_eq (maxF : ℕ) (l : List FsEntry) (root : List String) :
    scanUnixHiddenFiles maxF l root true =
      ((scanDirectory maxF l root 0 0).1 ++
        (scanCommonDirs maxF l root commonHiddenDirs
          (scanDirectory maxF l root 0 0).2).1,
       (scanCommonDirs maxF l root commonHiddenDirs
          (scanDirectory maxF l root 0 0).2).2) := rfl

/-- A non-empty forest has positive weight. -/
theorem forestWeight_pos {l : List FsEntry} {e : FsEntry} (he : e ∈ l) :
    1 ≤ forestWeight l := by
  cases l with
  | nil => cases he
  | cons f rest =>
    cases f <;> simp [forestWeight] <;> omega

/-- Every reachable hidden path is discovered by the entry loop provided
the cap cannot be reached. -/
theorem scan_reach_complete (maxF : ℕ) (l : List FsEntry) (p0 : List String) (d c : ℕ) :
    ∀ pth, ReachPath l d pth → c + forestWeight l ≤ maxF →
      ∃ a ∈ (scanEntries maxF l p0 d c).1, a.path = p0 ++ pth := by
  induction l, p0, d, c using scanEntries.induct maxF with
  | case1 p d c =>
    intro pth hr hcap
    cases hr with
    | here he hh => cases he
    | deeper he hh hd hr => cases he
  | case2 e rest p d c hcap =>
    intro pth hr hcap2
    have h1 : 1 ≤ forestWeight (e :: rest) := forestWeight_pos (List.mem_cons_self e rest)
    omega
  | case3 rest p d c hcap nm sz hh ih =>
    intro pth hr hcap2
    rw [scanEntries.eq_def]
    simp only [if_neg hcap, if_pos hh]
    rw [forestWeight] at hcap2
    cases hr with
    | here he hh2 =>
      rcases List.mem_cons.mp he with rfl | he
      · exact ⟨_, List.mem_cons_self _ _, by simp [FsEntry.name]⟩
      · obtain ⟨a, ha, hpa⟩ := ih _ (ReachPath.here he hh2) (by omega)
        exact ⟨a, List.mem_cons_of_mem _ ha, hpa⟩
    | deeper he hh2 hd hr2 =>
      rcases List.mem_cons.mp he with heq | he
      · exact absurd heq (by simp)
      · obtain ⟨a, ha, hpa⟩ := ih _ (ReachPath.deeper he hh2 hd hr2) (by omega)
        exact ⟨a, List.mem_cons_of_mem _ ha, hpa⟩
  | case4 rest p d c hcap nm sz hh ih =>
    intro pth hr hcap2
    rw [scanEntries.eq_def]
    simp only [if_neg hcap, if_neg hh]
    rw [forestWeight] at hcap2
    cases hr with
    | here he hh2 =>
      rcases List.mem_cons.mp he with rfl | he
      · exact absurd hh2 (by simpa [FsEntry.name] using hh)
      · exact ih _ (ReachPath.here he hh2) (by omega)
    | deeper he hh2 hd hr2 =>
      rcases List.mem_cons.mp he with heq | he
      · exact absurd heq (by simp)
      · exact ih _ (ReachPath.deeper he hh2 hd hr2) (by omega)
  | case5 rest p d c hcap nm ch hh hd sub ih1 ih2 =>
    intro pth hr hcap2
    have hsub : sub = scanEntries maxF ch (p ++ [nm]) (d + 1) (c + 1) := rfl
    rw [hsub] at ih2
    rw [scanEntries.eq_def]
    simp only [if_neg hcap, if_pos hh, if_pos hd]
    rw [forestWeight] at hcap2
    have hb := scan_count_bounds maxF ch (p ++ [nm]) (d + 1) (c + 1)
    cases hr with
    | here he hh2 =>
      rcases List.mem_cons.mp he with rfl | he
      · exact ⟨_, List.mem_cons_self _ _, by simp [FsEntry.name]⟩
      · obtain ⟨a, ha, hpa⟩ := ih2 _ (ReachPath.here he hh2) (by omega)
        exact ⟨a, List.mem_cons_of_mem _ (List.mem_append_right _ ha), hpa⟩
    | deeper he hh2 hd2 hr2 =>
      rcases List.mem_cons.mp he with heq | he
      · injection heq with h1 h2
        subst h1
        subst h2
        obtain ⟨a, ha, hpa⟩ := ih1 _ hr2 (by omega)
        refine ⟨a, List.mem_cons_of_mem _ (List.mem_append_left _ ha), ?_⟩
        rw [hpa, List.append_assoc]
        rfl
      · obtain ⟨a, ha, hpa⟩ := ih2 _ (ReachPath.deeper he hh2 hd2 hr2) (by omega)
        exact ⟨a, List.mem_cons_of_mem _ (List.mem_append_right _ ha), hpa⟩
  | case6 rest p d c hcap nm ch hh hd ih =>
    intro pth hr hcap2
    rw [scanEntries.eq_def]
    simp only [if_neg hcap, if_pos hh, if_neg hd]
    rw [forestWeight] at hcap2
    cases hr with
    | here he hh2 =>
      rcases List.mem_cons.mp he with rfl | he
      · exact ⟨_, List.mem_cons_self _ _, by simp [FsEntry.name]⟩
      · obtain ⟨a, ha, hpa⟩ := ih _ (ReachPath.here he hh2) (by omega)
        exact ⟨a, List.mem_cons_of_mem _ ha, hpa⟩
    | deeper he hh2 hd2 hr2 =>
      rcases List.mem_cons.mp he with heq | he
      · injection heq with h1 h2
        subst h1
        subst h2
        exact absurd hd2 hd
      · obtain ⟨a, ha, hpa⟩ := ih _ (ReachPath.deeper he hh2 hd2 hr2) (by omega)
        exact ⟨a, List.mem_cons_of_mem _ ha, hpa⟩
  | case7 rest p d c hcap nm ch hh ih =>
    intro pth hr hcap2
    rw [scanEntries.eq_def]
    simp only [if_neg hcap, if_neg hh]
    rw [forestWeight] at hcap2
    cases hr with
    | here he hh2 =>
      rcases List.mem_cons.mp he with rfl | he
      · exact absurd hh2 (by simpa [FsEntry.name] using hh)
      · exact ih _ (ReachPath.here he hh2) (by omega)
    | deeper he hh2 hd2 hr2 =>
      rcases List.mem_cons.mp he with heq | he
      · injection heq with h1 h2
        subst h1
        exact absurd hh2 (by simpa using hh)
      · exact ih _ (ReachPath.deeper he hh2 hd2 hr2) (by omega)

/-- Membership in an insertion is membership in the inserted element or the
original list. -/
theorem mem_insertBySizeDesc {c a : HiddenFile} {l : List HiddenFile} :
    c ∈ insertBySizeDesc a l ↔ c = a ∨ c ∈ l := by
  induction l with
  | nil => simp [insertBySizeDesc]
  | cons b t ih =>
    by_cases h : b.size ≤ a.size
    · simp [insertBySizeDesc, h]
    · simp [insertBySizeDesc, h, ih]
      tauto

/-- Insertion preserves the size-descending pairwise order. -/
theorem pairwise_insertBySizeDesc (a : HiddenFile) (l : List HiddenFile)
    (h : l.Pairwise (fun x y => y.size ≤ x.size)) :
    (insertBySizeDesc a l).Pairwise (fun x y => y.size ≤ x.size) := by
  induction l with
  | nil => simp [insertBySizeDesc]
  | cons b t ih =>
    rw [List.pairwise_cons] at h
    by_cases hab : b.size ≤ a.size
    · rw [insertBySizeDesc, if_pos hab, List.pairwise_cons]
      refine ⟨?_, List.pairwise_cons.mpr h⟩
      intro c hc
      rcases List.mem_cons.mp hc with rfl | hct
      · exact hab
      · exact le_trans (h.1 c hct) hab
    · rw [insertBySizeDesc, if_neg hab, List.pairwise_cons]
      refine ⟨?_, ih h.2⟩
      intro c hc
      rcases mem_insertBySizeDesc.mp hc with rfl | hct
      · exact le_of_lt (lt_of_not_le hab)
      · exact h.1 c hct

/-- The modelled sort produces size-descending pairwise order. -/
theorem pairwise_sortBySizeDesc (l : List HiddenFile) :
    (sortBySizeDesc l).Pairwise (fun x y => y.size ≤ x.size) := by
  induction l with
  | nil => simp [sortBySizeDesc]
  | cons a t ih => exact pairwise_insertBySizeDesc a _ ih

/-- Insertion grows the length by one. -/
theorem length_insertBySizeDesc (a : HiddenFile) (l : List HiddenFile) :
    (insertBySizeDesc a l).length = l.length + 1 := by
  induction l with
  | nil => rfl
  | cons b t ih =>
    by_cases h : b.size ≤ a.size
    · simp [insertBySizeDesc, h]
    · simp [insertBySizeDesc, h, ih]

/-- The modelled sort preserves length. -/
theorem length_sortBySizeDesc (l : List HiddenFile) :
    (sortBySizeDesc l).length = l.length := by
  induction l with
  | nil => rfl
  | cons a t ih => simp [sortBySizeDesc, length_insertBySizeDesc, ih]

/-- C1: the risk score is computed exactly as: start at 50, add 20 for the
swap file, add 25 for snapshots, subtract 30 for encryption, add 15 when
the free-space percentage exceeds 20, then clamp to [0, 100]; for every
combination of the four factor inputs the score is in [0, 100] and the risk
tier is HIGH iff score > 70, MEDIUM iff 40 < score ≤ 70, LOW otherwise; the
scenario with swap, snapshots and encryption all present and free space 25
yields score 80 and risk HIGH. -/
theorem recoverability_score_clamped_and_tiered (sw sn en : Bool) (fp : Int) :
    0 ≤ (computeRecoverabilityScore sw sn en fp).score ∧
    (computeRecoverabilityScore sw sn en fp).score ≤ 100 ∧
    ((computeRecoverabilityScore sw sn en fp).risk = "HIGH" ↔
      70 < (computeRecoverabilityScore sw sn en fp).score) ∧
    ((computeRecoverabilityScore sw sn en fp).risk = "MEDIUM" ↔
      (40 < (computeRecoverabilityScore sw sn en fp).score ∧
        (computeRecoverabilityScore sw sn en fp).score ≤ 70)) ∧
    ((computeRecoverabilityScore sw sn en fp).risk = "LOW" ↔
      (computeRecoverabilityScore sw sn en fp).score ≤ 40) ∧
    (computeRecoverabilityScore true true true 25).score = 80 ∧
    (computeRecoverabilityScore true true true 25).risk = "HIGH" := by
  cases sw <;> cases sn <;> cases en <;>
    by_cases h : fp > 20 <;>
      simp only [computeRecoverabilityScore, h, if_true, if_false, ite_true, ite_false] <;>
        decide

/-- C4 counterexample: when the statfs query succeeds with zero blocks, the
success path computes usagePercent as used / total * 100 with total = 0,
which in JS is NaN rather than the claimed 0. -/
theorem drive_space_zero_total_counterexample :
    (getDriveSpace (some (0, 4096, 0))).total = 0 ∧
    (getDriveSpace (some (0, 4096, 0))).usagePercentQ = none := by
  constructor <;> rfl

/-- C4 (amended): for every probe result, used + free = total; when the
capacity query succeeds with bavail ≤ blocks and total positive, the usage
percentage is a number in [0, 100]; when the query fails the percentage is
the literal 0; but when the query succeeds with total = 0 the percentage is
NaN (modelled none), not 0. -/
theorem drive_space_invariants (stat : Option (ℕ × ℕ × ℕ)) :
    ((getDriveSpace stat).used + (getDriveSpace stat).free = (getDriveSpace stat).total) ∧
    (∀ blocks bsize bavail, stat = some (blocks, bsize, bavail) →
      bavail ≤ blocks → 0 < (getDriveSpace stat).total →
      ∃ q, (getDriveSpace stat).usagePercentQ = some q ∧ 0 ≤ q ∧ q ≤ 100) ∧
    (stat = none → (getDriveSpace stat).usagePercentQ = some 0) ∧
    (∀ blocks bsize bavail, stat = some (blocks, bsize, bavail) →
      (getDriveSpace stat).total = 0 → (getDriveSpace stat).usagePercentQ = none) := by
  refine ⟨?_, ?_, ?_, ?_⟩
  · rcases stat with _ | ⟨b, bs, ba⟩
    · rfl
    · simp only [getDriveSpace]
      ring
  · intro blocks bsize bavail heq hle hpos
    subst heq
    simp only [getDriveSpace] at hpos ⊢
    have htot : ((blocks : ℤ) * (bsize : ℤ)) ≠ 0 := ne_of_gt hpos
    have hFle : ((bavail : ℤ) * (bsize : ℤ)) ≤ (blocks : ℤ) * (bsize : ℤ) := by
      exact_mod_cast Nat.mul_le_mul_right bsize hle
    have hTQ : (0 : ℚ) < (((blocks : ℤ) * (bsize : ℤ) : ℤ) : ℚ) := by exact_mod_cast hpos
    have h0 : (0 : ℚ) ≤ (((blocks : ℤ) * (bsize : ℤ) - (bavail : ℤ) * (bsize : ℤ) : ℤ) : ℚ) := by
      exact_mod_cast sub_nonneg.mpr hFle
    refine ⟨_, by rw [if_neg htot], ?_, ?_⟩
    · exact mul_nonneg (div_nonneg h0 hTQ.le) (by norm_num)
    · have hdiv : (((blocks : ℤ) * (bsize : ℤ) - (bavail : ℤ) * (bsize : ℤ) : ℤ) : ℚ) /
          (((blocks : ℤ) * (bsize : ℤ) : ℤ) : ℚ) ≤ 1 := by
        rw [div_le_one hTQ]
        have hsub : ((blocks : ℤ) * (bsize : ℤ) - (bavail : ℤ) * (bsize : ℤ) : ℤ) ≤
            (blocks : ℤ) * (bsize : ℤ) := by
          have hF0 : (0 : ℤ) ≤ (bavail : ℤ) * (bsize : ℤ) := by positivity
          omega
        exact_mod_cast hsub
      calc (((blocks : ℤ) * (bsize : ℤ) - (bavail : ℤ) * (bsize : ℤ) : ℤ) : ℚ) /
            (((blocks : ℤ) * (bsize : ℤ) : ℤ) : ℚ) * 100
          ≤ 1 * 100 := mul_le_mul_of_nonneg_right hdiv (by norm_num)
        _ = 100 := by norm_num
  · intro h
    subst h
    rfl
  · intro blocks bsize bavail heq h0
    subst heq
    simp only [getDriveSpace] at h0 ⊢
    rw [if_pos h0]

/-- C4 witness: a concrete successful probe with 100 blocks of size 4096
and 25 available satisfies the amended invariant. -/
theorem drive_space_invariants_witness :
    ∃ q, (getDriveSpace (some (100, 4096, 25))).usagePercentQ = some q ∧ 0 ≤ q ∧ q ≤ 100 :=
  (drive_space_invariants (some (100, 4096, 25))).2.1 100 4096 25 rfl
    (by decide) (by decide)

/-- C6 counterexample: at totalBytes 537109504000 and freeBytes 161406156800
the code renders usedGB as 349.90 (scaled 34990, not the claimed 34977) and
usagePercent as 69.9 (scaled 699, not the claimed 700); toFixed-rendered
fields are represented as integers scaled by 10 ^ d. -/
theorem drive_space_scenario_counterexample :
    jsToFixedScaled (getDriveSpace scenarioStat).usedGBQ 2 = 34990 ∧
    (getDriveSpace scenarioStat).usagePercentQ.map (fun q => jsToFixedScaled q 1) =
      some 699 ∧
    (34990 : ℤ) ≠ 34977 ∧ (699 : ℤ) ≠ 700 := by
  refine ⟨?_, ?_, by decide, by decide⟩
  · simp only [getDriveSpace, scenarioStat]
    norm_num [jsToFixedScaled]
  · simp only [getDriveSpace, scenarioStat]
    norm_num [jsToFixedScaled]

/-- C6 (amended): for the volume with totalBytes 537109504000 and freeBytes
161406156800 the derived presentation fields are usedGB 349.90 and
usagePercent 69.9 (as toFixed renderings scaled by 100 and 10). -/
theorem drive_space_scenario_values :
    jsToFixedScaled (getDriveSpace scenarioStat).usedGBQ 2 = 34990 ∧
    (getDriveSpace scenarioStat).usagePercentQ.map (fun q => jsToFixedScaled q 1) =
      some 699 := by
  refine ⟨?_, ?_⟩
  · simp only [getDriveSpace, scenarioStat]
    norm_num [jsToFixedScaled]
  · simp only [getDriveSpace, scenarioStat]
    norm_num [jsToFixedScaled]

/-- C5: privacy-risk classification is a pure function of eventId against
two fixed allowlists: 4624 yields High, ids in the medium allowlist yield
Medium, ids outside both yield Low, and the description never affects the
result. -/
theorem privacy_risk_allowlist_classification :
    (∀ d, assessPrivacyRisk "4624" d = "High") ∧
    (∀ eventId d, eventId ∈ mediumRiskEvents → assessPrivacyRisk eventId d = "Medium") ∧
    (∀ eventId d, eventId ∉ highRiskEvents → eventId ∉ mediumRiskEvents →
      assessPrivacyRisk eventId d = "Low") ∧
    (∀ eventId d₁ d₂, assessPrivacyRisk eventId d₁ = assessPrivacyRisk eventId d₂) := by
  refine ⟨fun d => rfl, ?_, ?_, fun i d₁ d₂ => rfl⟩
  · intro id d h
    fin_cases h <;> rfl
  · intro id d h1 h2
    simp [assessPrivacyRisk, h1, h2]

/-- C5 witness: concrete classifications for a high, a medium and an
unlisted event id. -/
theorem privacy_risk_allowlist_classification_witness :
    assessPrivacyRisk "4624" "a" = "High" ∧
    assessPrivacyRisk "1074" "b" = "Medium" ∧
    assessPrivacyRisk "9999" "c" = "Low" :=
  ⟨privacy_risk_allowlist_classification.1 "a",
   privacy_risk_allowlist_classification.2.1 "1074" "b" (by decide),
   privacy_risk_allowlist_classification.2.2.1 "9999" "c" (by decide) (by decide)⟩

/-- C10: the free-space factor uses the aggregate free / total ratio rounded
to the nearest integer percent before the > 20 comparison: an exact ratio
strictly between 20 and 20.5 percent rounds to 20 so the +15 increment is
not applied; a ratio of at least 20.5 percent rounds to 21 or more so the
increment is applied; with zero total space the percentage is 0 and the
increment is never applied. -/
theorem free_space_rounding_threshold (drives : List (ℕ × ℕ)) :
    ((20 : ℚ) < rawFreePercentage drives → rawFreePercentage drives < 41 / 2 →
      freeSpaceBonusApplied drives = false) ∧
    ((41 : ℚ) / 2 ≤ rawFreePercentage drives → freeSpaceBonusApplied drives = true) ∧
    ((drives.map Prod.fst).sum = 0 →
      (analyzeFreeSpace drives).percentage = 0 ∧ freeSpaceBonusApplied drives = false) := by
  refine ⟨?_, ?_, ?_⟩
  · intro h1 h2
    have hfl : jsMathRound (rawFreePercentage drives) = 20 := by
      unfold jsMathRound
      rw [Int.floor_eq_iff]
      refine ⟨by push_cast; linarith, by push_cast; linarith⟩
    simp [freeSpaceBonusApplied, analyzeFreeSpace, hfl]
  · intro h
    have hfl : (21 : ℤ) ≤ jsMathRound (rawFreePercentage drives) := by
      unfold jsMathRound
      rw [Int.le_floor]
      push_cast
      linarith
    have h20 : (20 : ℤ) < jsMathRound (rawFreePercentage drives) := by omega
    simp [freeSpaceBonusApplied, analyzeFreeSpace, h20]
  · intro h
    have hraw : rawFreePercentage drives = 0 := by
      simp [rawFreePercentage, h]
    have hfl : jsMathRound (rawFreePercentage drives) = 0 := by
      rw [hraw]
      unfold jsMathRound
      rw [Int.floor_eq_iff]
      norm_num
    constructor
    · simpa [analyzeFreeSpace] using hfl
    · simp [freeSpaceBonusApplied, analyzeFreeSpace, hfl]

/-- C10 witness: with one drive of 1000 total and 201 free bytes the exact
ratio is 20.1 percent and the increment is not applied; with 205 free bytes
the ratio is exactly 20.5 percent and the increment is applied; with no
drives the percentage is 0. -/
theorem free_space_rounding_threshold_witness :
    freeSpaceBonusApplied [(1000, 201)] = false ∧
    freeSpaceBonusApplied [(1000, 205)] = true ∧
    (analyzeFreeSpace []).percentage = 0 :=
  ⟨(free_space_rounding_threshold [(1000, 201)]).1 (by norm_num [rawFreePercentage])
      (by norm_num [rawFreePercentage]),
   (free_space_rounding_threshold [(1000, 205)]).2.1 (by norm_num [rawFreePercentage]),
   ((free_space_rounding_threshold []).2.2 rfl).1⟩

/-- C3: for every result of the scan-hidden-files handler, over every
possible discovered list on any platform and scan root: the returned file
list has at most 200 entries, totalScanned is at least the returned length,
and the returned list is sorted non-increasing by size. -/
theorem hidden_scan_cap_count_sort (hiddenFiles : List HiddenFile) (scanPath : String) :
    (scanHiddenFilesResult hiddenFiles scanPath).files.length ≤ 200 ∧
    (scanHiddenFilesResult hiddenFiles scanPath).files.length ≤
      (scanHiddenFilesResult hiddenFiles scanPath).totalScanned ∧
    (scanHiddenFilesResult hiddenFiles scanPath).files.Pairwise
      (fun x y => y.size ≤ x.size) := by
  refine ⟨?_, ?_, ?_⟩
  · simp only [scanHiddenFilesResult, List.length_take]
    omega
  · simp only [scanHiddenFilesResult, List.length_take, length_sortBySizeDesc]
    omega
  · exact (pairwise_sortBySizeDesc hiddenFiles).sublist (List.take_sublist _ _)

/-- C7 counterexample: a file whose only byte is the vertical tab 0x0B
(a control byte outside tab, newline, carriage return and the printable
range) is not flagged as binary, because the handler regex class skips the
whole x09-x0D gap, not just tab, newline and carriage return. -/
theorem preview_vertical_tab_counterexample :
    (previewFile [0x0B]).isBinary = false ∧
    (0x0B : ℕ) < 0x20 ∧ (0x0B : ℕ) ≠ 0x09 ∧ (0x0B : ℕ) ≠ 0x0A ∧ (0x0B : ℕ) ≠ 0x0D := by
  decide

/-- C7 (amended): the preview reads at most 2048 bytes; the result is
flagged binary exactly when the first 2048 bytes contain a code in
x00-x08, x0E-x1F or x7F (so tab, newline, vertical tab, form feed and
carriage return are all tolerated); flagged content is replaced with the
redaction marker; in particular a NUL byte in the window forces the flag
and the marker. -/
theorem preview_bounds_and_binary_detection (data : List ℕ) :
    (previewFile data).bytesRead ≤ 2048 ∧
    ((previewFile data).isBinary = true ↔
      ∃ b ∈ data.take 2048, isBinaryCode b = true) ∧
    ((previewFile data).isBinary = true →
      (previewFile data).content = binaryRedaction) ∧
    (0 ∈ data.take 2048 →
      (previewFile data).isBinary = true ∧
        (previewFile data).content = binaryRedaction) := by
  refine ⟨?_, ?_, ?_, ?_⟩
  · simp only [previewFile, List.length_take]
    omega
  · simp only [previewFile, List.any_eq_true]
  · intro h
    simp only [previewFile] at h ⊢
    rw [if_pos h]
  · intro h0
    have hb : (data.take 2048).any isBinaryCode = true := by
      rw [List.any_eq_true]
      exact ⟨0, h0, by decide⟩
    constructor
    · simpa only [previewFile] using hb
    · simp only [previewFile]
      rw [if_pos hb]

/-- C7 witness: a two-byte file beginning with NUL previews as binary with
redacted content and bytesRead within bounds. -/
theorem preview_bounds_and_binary_detection_witness :
    (previewFile [0, 65]).isBinary = true ∧
    (previewFile [0, 65]).content = binaryRedaction :=
  (preview_bounds_and_binary_detection [0, 65]).2.2.2 (by decide)

/-- C9 counterexample: a raw entry whose text yields an eventId but no
timeCreated is discarded, although the claim says an entry with at least
one of the two fields is kept. -/
theorem parse_event_entry_one_field_counterexample :
    (parseEventFields "EventID 4624").eventId = some "4624" ∧
    (parseEventFields "EventID 4624").timeCreated = none ∧
    parseEventEntry "EventID 4624" "Security" = none := by
  refine ⟨by decide, by decide, by decide⟩

/-- C9 (amended): the parser keeps a raw entry exactly when both eventId
and timeCreated were extracted; an entry missing either one (not merely
both) is discarded. -/
theorem parse_event_entry_keeps_iff_both (eventText logSource : String) :
    (parseEventEntry eventText logSource).isSome = true ↔
      ((parseEventFields eventText).eventId ≠ none ∧
        (parseEventFields eventText).timeCreated ≠ none) := by
  unfold parseEventEntry
  rcases h1 : (parseEventFields eventText).eventId with _ | eid <;>
    rcases h2 : (parseEventFields eventText).timeCreated with _ | ts <;>
      simp [h1, h2]

/-- C9 witness: a raw entry carrying both an EventID line and a TimeCreated
line is kept. -/
theorem parse_event_entry_keeps_iff_both_witness :
    (parseEventEntry "EventID 4624\nTimeCreated 2024-01-01T10:00:00.123Z" "Security").isSome
      = true :=
  (parse_event_entry_keeps_iff_both "EventID 4624\nTimeCreated 2024-01-01T10:00:00.123Z"
    "Security").mpr ⟨by decide, by decide⟩

/-- C8 counterexample: both universal parts of the claim fail on the full
walk.  The hidden file .secret sits two levels below the scan root inside
the non-hidden directory docs, within the claimed depth bound, yet the
walk discovers nothing, because recursion only enters dot-prefixed
directories.  And on a home-directory scan the second pass re-enters
.config with depth reset to 0, visiting an entry four levels below the
scan root, deeper than the claimed 3-level limit. -/
theorem hidden_walk_original_claim_counterexample :
    (scanUnixHiddenFiles 200 nonHiddenParentTree ["home"] false).1 = [] ∧
    isHiddenName ".secret" = true ∧ isHiddenName "docs" = false ∧
    (∃ a ∈ (scanUnixHiddenFiles 200 homeDepthTree ["home"] true).1,
      a.path = ["home", ".config", ".a", ".b", ".c"] ∧
      (["home"] : List String).length + 3 < a.path.length) := by
  refine ⟨?_, by decide, by decide, ?_⟩
  · have h1 : isHiddenName "docs" = false := by decide
    simp [scanUnixHiddenFiles, scanDirectory, nonHiddenParentTree, scanEntries.eq_def, h1]
  · have h2 : isHiddenName ".config" = true := by decide
    have h3 : isHiddenName ".a" = true := by decide
    have h4 : isHiddenName ".b" = true := by decide
    have h5 : isHiddenName ".c" = true := by decide
    refine ⟨{ path := ["home", ".config", ".a", ".b", ".c"], name := ".c", size := 3,
              isDirectory := false }, ?_, rfl, by decide⟩
    simp [scanUnixHiddenFiles, scanDirectory, homeDepthTree, scanCommonDirs,
      commonHiddenDirs, findDir, scanEntries.eq_def, h2, h3, h4, h5]

/-- C8 (amended): every artifact the full walk emits lies along a chain of
dot-prefixed entries, either reachable from the scan root within the
depth-2 recursion guard, or, on a home-directory scan, reachable from one
of the six well-known hidden directories re-scanned at depth 0; hence
every artifact lies 1 to 4 levels below the scan root, and at most 3 when
the scan root is not the home directory.  Conversely, every hidden entry
reachable from the root through dot-prefixed directories within the depth
budget is discovered when the 200 cap cannot be reached.  Hidden entries
beneath non-dot directories are never visited. -/
theorem hidden_walk_depth_bound_and_reach (maxF : ℕ) (l : List FsEntry)
    (root : List String) (isHome : Bool) (hm : 0 < maxF) :
    (∀ a ∈ (scanUnixHiddenFiles maxF l root isHome).1,
      (∃ pth, ReachPath l 0 pth ∧ (∀ s ∈ pth, isHiddenName s = true) ∧
        a.path = root ++ pth) ∨
      (isHome = true ∧ ∃ nm ch pth, nm ∈ commonHiddenDirs ∧ findDir l nm = some ch ∧
        ReachPath ch 0 pth ∧ (∀ s ∈ pth, isHiddenName s = true) ∧
        a.path = root ++ nm :: pth)) ∧
    (∀ a ∈ (scanUnixHiddenFiles maxF l root isHome).1,
      root.length + 1 ≤ a.path.length ∧ a.path.length ≤ root.length + 4 ∧
      (isHome = false → a.path.length ≤ root.length + 3)) ∧
    (∀ pth, ReachPath l 0 pth → forestWeight l ≤ maxF →
      ∃ a ∈ (scanUnixHiddenFiles maxF l root isHome).1, a.path = root ++ pth) := by
  have hguard : ¬(maxF ≤ 0 || 3 < 0) = true := by
    simp
    omega
  have hsound : ∀ a ∈ (scanUnixHiddenFiles maxF l root isHome).1,
      (∃ pth, ReachPath l 0 pth ∧ (∀ s ∈ pth, isHiddenName s = true) ∧
        a.path = root ++ pth) ∨
      (isHome = true ∧ ∃ nm ch pth, nm ∈ commonHiddenDirs ∧ findDir l nm = some ch ∧
        ReachPath ch 0 pth ∧ (∀ s ∈ pth, isHiddenName s = true) ∧
        a.path = root ++ nm :: pth) := by
    intro a ha
    cases isHome with
    | false =>
      rw [scanUnixHiddenFiles_false_eq] at ha
      obtain ⟨pth, hpa, hr⟩ := scanDirectory_path_sound maxF l root 0 0 a ha
      exact Or.inl ⟨pth, hr, reachPath_hidden hr, hpa⟩
    | true =>
      rw [scanUnixHiddenFiles_true_eq] at ha
      rcases List.mem_append.mp ha with ha2 | ha2
      · obtain ⟨pth, hpa, hr⟩ := scanDirectory_path_sound maxF l root 0 0 a ha2
        exact Or.inl ⟨pth, hr, reachPath_hidden hr, hpa⟩
      · obtain ⟨nm, ch, pth, hmem, hfd, hr, hpa⟩ :=
          scanCommonDirs_sound maxF l root commonHiddenDirs _ a ha2
        exact Or.inr ⟨rfl, nm, ch, pth, hmem, hfd, hr, reachPath_hidden hr, hpa⟩
  refine ⟨hsound, ?_, ?_⟩
  · intro a ha
    rcases hsound a ha with ⟨pth, hr, _, hpa⟩ | ⟨hhome, nm, ch, pth, _, _, hr, _, hpa⟩
    · have hlen := reachPath_length hr (by omega)
      rw [hpa]
      simp only [List.length_append]
      refine ⟨by omega, by omega, fun _ => by omega⟩
    · have hlen := reachPath_length hr (by omega)
      rw [hpa]
      simp only [List.length_append, List.length_cons]
      refine ⟨by omega, by omega, fun hfalse => ?_⟩
      rw [hhome] at hfalse
      cases hfalse
  · intro pth hr hcap
    have hmain := scan_reach_complete maxF l root 0 0 pth hr (by omega)
    obtain ⟨a, ha, hpa⟩ := hmain
    have ha2 : a ∈ (scanDirectory maxF l root 0 0).1 := by
      rw [scanDirectory, if_neg hguard]
      exact ha
    cases isHome with
    | false =>
      rw [scanUnixHiddenFiles_false_eq]
      exact ⟨a, ha2, hpa⟩
    | true =>
      rw [scanUnixHiddenFiles_true_eq]
      exact ⟨a, List.mem_append_left _ ha2, hpa⟩

/-- C8 witness: a chain of hidden directories with a hidden file three
levels below a non-home root is discovered under the default cap of
200. -/
theorem hidden_walk_depth_bound_and_reach_witness :
    ∃ a ∈ (scanUnixHiddenFiles 200 deepHiddenChain ["home"] false).1,
      a.path = ["home"] ++ [".a", ".b", ".c"] :=
  (hidden_walk_depth_bound_and_reach 200 deepHiddenChain ["home"] false (by decide)).2.2
    [".a", ".b", ".c"]
    (ReachPath.deeper (List.mem_cons_self _ _) (by decide) (by decide)
      (ReachPath.deeper (List.mem_cons_self _ _) (by decide) (by decide)
        (ReachPath.here (List.mem_cons_self _ _) (by decide))))
    (by simp [deepHiddenChain, forestWeight])

/-- C2: signing a well-formed scan payload (fields disjoint from the
reserved signature and publicKey keys, plain strings) and verifying the
persisted report with the same process-lifetime key yields valid = true
and publicKeyMatch = true; and for every signed report, changing the
payload in any field other than signature and publicKey before
verification yields valid = false (the crypto primitive is idealized as a
perfect signature scheme; the payload-byte injectivity of the canonical
serialization is what the code supplies). -/
theorem report_sign_verify_roundtrip_and_tamper
    (keyId : ℕ) (reportId timestamp : String) (scanData : List (String × String))
    (hks : ∀ kv ∈ scanData, kv.1 ≠ "signature" ∧ kv.1 ≠ "publicKey")
    (hpr : PlainStr reportId) (hpt : PlainStr timestamp) (hpd : PlainKV scanData) :
    ((verifyReport (generateScanReport keyId reportId timestamp scanData) keyId).valid
        = true ∧
      (verifyReport (generateScanReport keyId reportId timestamp scanData)
        keyId).publicKeyMatch = true) ∧
    (∀ payload₂, PlainKV payload₂ →
      (∀ kv ∈ payload₂, kv.1 ≠ "signature" ∧ kv.1 ≠ "publicKey") →
      payload₂ ≠ (generateScanReport keyId reportId timestamp scanData).payload →
      (verifyReport
        { payload := payload₂
          signature := (generateScanReport keyId reportId timestamp scanData).signature
          publicKey := keyId } keyId).valid = false) := by
  have hbase : ∀ kv ∈ (generateScanReport keyId reportId timestamp scanData).payload,
      kv.1 ≠ "signature" ∧ kv.1 ≠ "publicKey" := by
    intro kv hkv
    simp only [generateScanReport, List.mem_cons] at hkv
    rcases hkv with rfl | rfl | rfl | hkv
    · exact ⟨(by decide : ("reportId" : String) ≠ "signature"),
        (by decide : ("reportId" : String) ≠ "publicKey")⟩
    · exact ⟨(by decide : ("timestamp" : String) ≠ "signature"),
        (by decide : ("timestamp" : String) ≠ "publicKey")⟩
    · exact ⟨(by decide : ("version" : String) ≠ "signature"),
        (by decide : ("version" : String) ≠ "publicKey")⟩
    · exact hks kv hkv
  have hplain : PlainKV (generateScanReport keyId reportId timestamp scanData).payload := by
    intro kv hkv
    simp only [generateScanReport, List.mem_cons] at hkv
    rcases hkv with rfl | rfl | rfl | hkv
    · exact ⟨show ∀ c ∈ ("reportId" : String).data, plainChar c = true by decide, hpr⟩
    · exact ⟨show ∀ c ∈ ("timestamp" : String).data, plainChar c = true by decide, hpt⟩
    · exact ⟨show ∀ c ∈ ("version" : String).data, plainChar c = true by decide,
        show ∀ c ∈ ("1.0" : String).data, plainChar c = true by decide⟩
    · exact hpd kv hkv
  have hpk : (generateScanReport keyId reportId timestamp scanData).publicKey = keyId := rfl
  have hsig : (generateScanReport keyId reportId timestamp scanData).signature =
      cryptoSign keyId
        (serializeFlat (generateScanReport keyId reportId timestamp scanData).payload) := rfl
  constructor
  · constructor
    · simp only [verifyReport]
      rw [stripSigKeys_eq_self hbase, hpk, hsig]
      simp [cryptoVerify, cryptoSign]
    · simp only [verifyReport, hpk]
      simp
  · intro payload₂ hp2 hk2 hne
    simp only [verifyReport]
    rw [stripSigKeys_eq_self hk2, hsig]
    have hser : serializeFlat (generateScanReport keyId reportId timestamp scanData).payload
        ≠ serializeFlat payload₂ := by
      intro habs
      exact hne (serializeFlat_inj hp2 hplain habs.symm)
    simp [cryptoVerify, cryptoSign, hser]

/-- C2 witness: a concrete payload round-trips to valid with a matching
key, and the same signature over a payload whose reportId field was
changed fails verification. -/
theorem report_sign_verify_roundtrip_and_tamper_witness :
    (verifyReport (generateScanReport 7 "r1" "t1" [("drives", "ok")]) 7).valid = true ∧
    (verifyReport (generateScanReport 7 "r1" "t1" [("drives", "ok")]) 7).publicKeyMatch
      = true ∧
    (verifyReport
      { payload := [("reportId", "r2"), ("timestamp", "t1"), ("version", "1.0"),
          ("drives", "ok")]
        signature := (generateScanReport 7 "r1" "t1" [("drives", "ok")]).signature
        publicKey := 7 } 7).valid = false := by
  have h := report_sign_verify_roundtrip_and_tamper 7 "r1" "t1" [("drives", "ok")]
    (by decide) (by decide) (by decide) (by decide)
  refine ⟨h.1.1, h.1.2, ?_⟩
  exact h.2 [("reportId", "r2"), ("timestamp", "t1"), ("version", "1.0"), ("drives", "ok")]
    (by decide) (by decide) (by decide)

end Spec2Proof
